import Mathlib

/-!
Verification of the realtime collaboration subsystem of the
phatdat20905/interview-app repository.

Server side, from src/backend/src/server.js: an in-memory map
`rooms` from room id to a map from socket id to user info, mutated by
the `join-room`, `leave-room` and `disconnect` handlers, and read by the
relay handlers `code-change`, `cursor-change`, `language-change`,
`run-code`, which broadcast to every socket of the room except the sender.

Client side, from the CodeEditorPanel component and
src/frontend/src/lib/socket.js: a debounced local-edit path, an
echo-suppression flag for remotely applied updates, and a singleton
socket module whose emit helpers are silent no-ops when unconnected.
-/

/-! ### Association-list model of a JavaScript Map

Entries are kept in insertion order, as Map iteration observes them:
`set` updates in place when the key is present and appends otherwise,
`delete` removes the entry, `get` returns the value of the first entry
with the key.
-/

def mapGet {κ α : Type} [DecidableEq κ] : List (κ × α) → κ → Option α
  | [], _ => none
  | (k1, v1) :: rest, k => if k1 = k then some v1 else mapGet rest k

def mapHas {κ α : Type} [DecidableEq κ] (m : List (κ × α)) (k : κ) : Bool :=
  (mapGet m k).isSome

def mapSet {κ α : Type} [DecidableEq κ] : List (κ × α) → κ → α → List (κ × α)
  | [], k, v => [(k, v)]
  | (k1, v1) :: rest, k, v =>
    if k1 = k then (k, v) :: rest else (k1, v1) :: mapSet rest k v

def mapDelete {κ α : Type} [DecidableEq κ] : List (κ × α) → κ → List (κ × α)
  | [], _ => []
  | (k1, v1) :: rest, k =>
    if k1 = k then mapDelete rest k else (k1, v1) :: mapDelete rest k

def keysOf {κ α : Type} (m : List (κ × α)) : List κ := m.map Prod.fst

def nodupKeys {κ α : Type} (m : List (κ × α)) : Prop := (keysOf m).Nodup

/-! ### Server model

Embedding of the Socket.IO handlers of src/backend/src/server.js.
The registry is `rooms : Rooms`, a JS Map from room id to a JS Map from
socket id to user info.  Each handler returns the new registry together
with the list of emissions it performs; an emission via
`socket.to(roomId).emit(...)` is a broadcast whose target list is the
room's sockets minus the sender, an emission via `socket.emit(...)` is a
direct message to one socket.
-/

structure UserInfo where
  userId : String
  userName : String
deriving DecidableEq, Repr

abbrev ConnId := String
abbrev RoomId := String
abbrev UserMap := List (ConnId × UserInfo)
abbrev Rooms := List (RoomId × UserMap)

inductive Payload where
  | userJoined (userId userName socketId : String)
  | roomUsers (users : List UserInfo)
  | userLeft (userId userName socketId : String)
  | codeUpdate (code language userId : String) (timestamp : Nat)
  | cursorUpdate (position userId userName socketId : String)
  | languageUpdate (language userId : String)
  | runCode (code language userId : String) (timestamp : Nat)
deriving DecidableEq, Repr

structure Emission where
  isBroadcast : Bool
  targets : List ConnId
  payload : Payload
deriving DecidableEq, Repr

/-- Target set of `socket.to(roomId).emit(...)` read off a registry:
every socket currently in the room except the sender. -/
def broadcastTo (rooms : Rooms) (roomId : RoomId) (sender : ConnId) : List ConnId :=
  (((mapGet rooms roomId).getD []).map Prod.fst).filter (fun c => decide (c ≠ sender))

/-- Registry read-out used throughout: the participant snapshot of a room,
empty when the room is absent (spec operation listParticipants). -/
def listParticipants (rooms : Rooms) (roomId : RoomId) : List UserInfo :=
  ((mapGet rooms roomId).getD []).map Prod.snd

def participantIds (rooms : Rooms) (roomId : RoomId) : List ConnId :=
  ((mapGet rooms roomId).getD []).map Prod.fst

/-- Whether a socket is currently registered in a room. -/
def memberB (rooms : Rooms) (roomId : RoomId) (sock : ConnId) : Bool :=
  mapHas ((mapGet rooms roomId).getD []) sock

/-- The join-room handler: create the room map if absent, register the
joiner (overwriting on re-join), broadcast user-joined to the others,
then send room-users with the post-insertion participant snapshot directly to
the joiner. -/
def joinRoom (rooms : Rooms) (sock : ConnId) (roomId : RoomId)
    (userId userName : String) : Rooms × List Emission :=
  let rooms1 := if mapHas rooms roomId then rooms else mapSet rooms roomId []
  let users := (mapGet rooms1 roomId).getD []
  let rooms2 := mapSet rooms1 roomId (mapSet users sock ⟨userId, userName⟩)
  let emJoined : Emission :=
    ⟨true, broadcastTo rooms2 roomId sock, .userJoined userId userName sock⟩
  let emUsers : Emission :=
    ⟨false, [sock], .roomUsers (((mapGet rooms2 roomId).getD []).map Prod.snd)⟩
  (rooms2, [emJoined, emUsers])

/-- The code-change relay: registry untouched, code-update broadcast to
the room excluding the sender. -/
def codeChangeRelay (rooms : Rooms) (sock : ConnId)
    (roomId code language userId : String) (now : Nat) : Rooms × List Emission :=
  (rooms, [⟨true, broadcastTo rooms roomId sock, .codeUpdate code language userId now⟩])

/-- The cursor-change relay. -/
def cursorChangeRelay (rooms : Rooms) (sock : ConnId)
    (roomId position userId userName : String) : Rooms × List Emission :=
  (rooms, [⟨true, broadcastTo rooms roomId sock, .cursorUpdate position userId userName sock⟩])

/-- The language-change relay. -/
def languageChangeRelay (rooms : Rooms) (sock : ConnId)
    (roomId language userId : String) : Rooms × List Emission :=
  (rooms, [⟨true, broadcastTo rooms roomId sock, .languageUpdate language userId⟩])

/-- The run-code relay. -/
def runCodeRelay (rooms : Rooms) (sock : ConnId)
    (roomId code language userId : String) (now : Nat) : Rooms × List Emission :=
  (rooms, [⟨true, broadcastTo rooms roomId sock, .runCode code language userId now⟩])

/-- The disconnect handler body: walk every room entry in insertion
order; where the socket is registered, delete it, broadcast user-left to
the remaining sockets of that room, and drop the room entry when it
became empty. -/
def disconnectGo (sock : ConnId) : Rooms → Rooms × List Emission
  | [] => ([], [])
  | (rid, users) :: rest =>
    match mapGet users sock with
    | none =>
      let r := disconnectGo sock rest
      ((rid, users) :: r.1, r.2)
    | some info =>
      let users1 := mapDelete users sock
      let em : Emission :=
        ⟨true, users1.map Prod.fst, .userLeft info.userId info.userName sock⟩
      let r := disconnectGo sock rest
      if users1.isEmpty then (r.1, em :: r.2) else ((rid, users1) :: r.1, em :: r.2)

def disconnectHandler (rooms : Rooms) (sock : ConnId) : Rooms × List Emission :=
  disconnectGo sock rooms

/-- The leave-room handler: if the room exists and contains the socket,
delete it, broadcast user-left to the remaining sockets, and drop the
room entry when it became empty; otherwise do nothing. -/
def leaveRoom (rooms : Rooms) (sock : ConnId) (roomId : RoomId) : Rooms × List Emission :=
  match mapGet rooms roomId with
  | none => (rooms, [])
  | some users =>
    match mapGet users sock with
    | none => (rooms, [])
    | some info =>
      let users1 := mapDelete users sock
      let em : Emission :=
        ⟨true, users1.map Prod.fst, .userLeft info.userId info.userName sock⟩
      let rooms1 := if users1.isEmpty then mapDelete rooms roomId
        else mapSet rooms roomId users1
      (rooms1, [em])

/-! ### Trace semantics of the lifecycle events -/

inductive CEvent where
  | join (sock : ConnId) (roomId : RoomId) (userId userName : String)
  | leave (sock : ConnId) (roomId : RoomId)
  | disc (sock : ConnId)
deriving DecidableEq, Repr

def stepEvent (rooms : Rooms) : CEvent → Rooms
  | .join s r u n => (joinRoom rooms s r u n).1
  | .leave s r => (leaveRoom rooms s r).1
  | .disc s => (disconnectHandler rooms s).1

def runTrace (tr : List CEvent) : Rooms :=
  tr.foldl stepEvent []

/-- Modelled from the spec (testable property 1), one event at a time: a
join of this connection to this room makes it a member, a leave of this
room or a disconnect of this connection ends the membership, and any
other event leaves it untouched. -/
def memberSpecStep (roomId : RoomId) (sock : ConnId) (acc : Bool) : CEvent → Bool
  | .join s r _ _ => if s = sock ∧ r = roomId then true else acc
  | .leave s r => if s = sock ∧ r = roomId then false else acc
  | .disc s => if s = sock then false else acc

/-- Modelled from the spec (testable property 1): a connection is in the
room exactly when it has joined the room and has not since left it or
disconnected, i.e. the last event of the trace concerning this
connection and room is a join. -/
def joinedNotLeft (tr : List CEvent) (roomId : RoomId) (sock : ConnId) : Bool :=
  tr.foldl (memberSpecStep roomId sock) false

/-! ### Client model

Embedding of the collaboration logic of the CodeEditorPanel component:
the debounced local-edit handler `handleCodeChange`, the remote-update
handler `handleCodeUpdate`, and the debounce timer expiry.  The
component props that the handlers close over are gathered in
`ClientCtx`; `roomId` and `userId` are `Option String` so that `none`
models a missing (falsy) prop.  The pending debounce timer is modelled
as the captured emission the timeout callback would perform, `none`
when no timer is scheduled.
-/

abbrev Code := String

structure ClientCtx where
  connected : Bool
  roomId : Option String
  userId : Option String
  language : String

inductive OutEvent where
  | codeChange (roomId : String) (code : Code) (language : String) (userId : String)
deriving DecidableEq, Repr

structure ClientState where
  isRemote : Bool
  localCode : Code
  pending : Option OutEvent
deriving DecidableEq, Repr

/-- The local-edit handler: a change made while the applying-remote flag
is set clears the flag and does nothing else; a genuine local edit
updates the local state unconditionally and, when the socket is
connected and roomId and userId are present, cancels any pending timer
and schedules a fresh one capturing the current value. -/
def handleCodeChange (ctx : ClientCtx) (st : ClientState) (value : Code) :
    ClientState × List OutEvent :=
  if st.isRemote then ({ st with isRemote := false }, [])
  else
    let st1 := { st with localCode := value }
    match ctx.connected, ctx.roomId, ctx.userId with
    | true, some rid, some uid =>
      ({ st1 with pending := some (.codeChange rid value ctx.language uid) }, [])
    | _, _, _ => (st1, [])

/-- Expiry of the debounce timer: emit the captured code-change, leaving
no timer scheduled. -/
def fireDebounce (st : ClientState) : ClientState × List OutEvent :=
  match st.pending with
  | none => (st, [])
  | some ev => ({ st with pending := none }, [ev])

/-- The remote-update listener: an update carrying the local user's own
id is discarded; otherwise the applying-remote flag is set and the local
buffer replaced with the remote value. -/
def handleCodeUpdate (ctx : ClientCtx) (st : ClientState)
    (remoteCode : Code) (remoteUserId : String) : ClientState :=
  if some remoteUserId = ctx.userId then st
  else { st with isRemote := true, localCode := remoteCode }

/-- A burst of local edits: run `handleCodeChange` on each value in
order, collecting emissions. -/
def runEdits (ctx : ClientCtx) (st : ClientState) : List Code → ClientState × List OutEvent
  | [] => (st, [])
  | v :: rest =>
    let r1 := handleCodeChange ctx st v
    let r2 := runEdits ctx r1.1 rest
    (r2.1, r1.2 ++ r2.2)

/-! ### Client socket module

Embedding of src/frontend/src/lib/socket.js: a module-level singleton
socket, created lazily by `getSocket` (a fresh socket is not yet
connected), and emit helpers guarded by the socket's existence or
connectedness.
-/

structure SockConn where
  connected : Bool
deriving DecidableEq, Repr

structure SockModule where
  socket : Option SockConn
deriving DecidableEq, Repr

inductive SockEmit where
  | joinRoomEv (roomId userId userName : String)
  | leaveRoomEv (roomId : String)
  | codeChangeEv (roomId code language userId : String)
  | cursorChangeEv (roomId position userId userName : String)
  | languageChangeEv (roomId language userId : String)
deriving DecidableEq, Repr

namespace SockModule

def getSocket (m : SockModule) : SockModule × SockConn :=
  match m.socket with
  | some s => (m, s)
  | none =>
    let s : SockConn := ⟨false⟩
    (⟨some s⟩, s)

def joinRoom (m : SockModule) (roomId userId userName : String) :
    SockModule × List SockEmit :=
  let r := getSocket m
  (r.1, [.joinRoomEv roomId userId userName])

def leaveRoom (m : SockModule) (roomId : String) : SockModule × List SockEmit :=
  match m.socket with
  | none => (m, [])
  | some _ => (m, [.leaveRoomEv roomId])

def emitCodeChange (m : SockModule) (roomId code language userId : String) :
    SockModule × List SockEmit :=
  match m.socket with
  | some s =>
    if s.connected then (m, [.codeChangeEv roomId code language userId]) else (m, [])
  | none => (m, [])

def emitCursorChange (m : SockModule) (roomId position userId userName : String) :
    SockModule × List SockEmit :=
  match m.socket with
  | some s =>
    if s.connected then (m, [.cursorChangeEv roomId position userId userName]) else (m, [])
  | none => (m, [])

def emitLanguageChange (m : SockModule) (roomId language userId : String) :
    SockModule × List SockEmit :=
  match m.socket with
  | some s =>
    if s.connected then (m, [.languageChangeEv roomId language userId]) else (m, [])
  | none => (m, [])

end SockModule


theorem mapGet_set_self {κ α : Type} [DecidableEq κ] (m : List (κ × α)) (k : κ) (v : α) :
    mapGet (mapSet m k v) k = some v := by
  induction m with
  | nil => simp [mapSet, mapGet]
  | cons p rest ih =>
    obtain ⟨k1, v1⟩ := p
    by_cases h : k1 = k <;> simp [mapSet, mapGet, h, ih]

theorem mapGet_set_other {κ α : Type} [DecidableEq κ] (m : List (κ × α)) (k k' : κ) (v : α)
    (h : k' ≠ k) : mapGet (mapSet m k v) k' = mapGet m k' := by
  induction m with
  | nil => simp [mapSet, mapGet, Ne.symm h]
  | cons p rest ih =>
    obtain ⟨k1, v1⟩ := p
    by_cases h1 : k1 = k
    · subst h1
      simp [mapSet, mapGet, Ne.symm h]
    · simp [mapSet, mapGet, h1, ih]

theorem mapGet_delete_self {κ α : Type} [DecidableEq κ] (m : List (κ × α)) (k : κ) :
    mapGet (mapDelete m k) k = none := by
  induction m with
  | nil => simp [mapDelete, mapGet]
  | cons p rest ih =>
    obtain ⟨k1, v1⟩ := p
    by_cases h : k1 = k <;> simp [mapDelete, mapGet, h, ih]

theorem mapGet_delete_other {κ α : Type} [DecidableEq κ] (m : List (κ × α)) (k k' : κ)
    (h : k' ≠ k) : mapGet (mapDelete m k) k' = mapGet m k' := by
  induction m with
  | nil => simp [mapDelete]
  | cons p rest ih =>
    obtain ⟨k1, v1⟩ := p
    by_cases h1 : k1 = k
    · subst h1
      simp [mapDelete, mapGet, Ne.symm h, ih]
    · by_cases h2 : k1 = k' <;> simp [mapDelete, mapGet, h1, h2, h, ih]

theorem mapSet_set_same {κ α : Type} [DecidableEq κ] (m : List (κ × α)) (k : κ) (v w : α) :
    mapSet (mapSet m k v) k w = mapSet m k w := by
  induction m with
  | nil => simp [mapSet]
  | cons p rest ih =>
    obtain ⟨k1, v1⟩ := p
    by_cases h : k1 = k <;> simp [mapSet, h, ih]

theorem mapSet_ne_nil {κ α : Type} [DecidableEq κ] (m : List (κ × α)) (k : κ) (v : α) :
    mapSet m k v ≠ [] := by
  cases m with
  | nil => simp [mapSet]
  | cons p rest =>
    obtain ⟨k1, v1⟩ := p
    by_cases h : k1 = k <;> simp [mapSet, h]

theorem mapGet_eq_none_of_not_mem_keys {κ α : Type} [DecidableEq κ] (m : List (κ × α)) (k : κ)
    (h : k ∉ keysOf m) : mapGet m k = none := by
  induction m with
  | nil => simp [mapGet]
  | cons p rest ih =>
    obtain ⟨k1, v1⟩ := p
    simp only [keysOf, List.map_cons, List.mem_cons] at h
    push_neg at h
    simpa [mapGet, Ne.symm h.1] using ih h.2

theorem not_mem_keys_mapDelete_self {κ α : Type} [DecidableEq κ] (m : List (κ × α)) (k : κ) :
    k ∉ keysOf (mapDelete m k) := by
  induction m with
  | nil => simp [mapDelete, keysOf]
  | cons p rest ih =>
    obtain ⟨k1, v1⟩ := p
    by_cases h : k1 = k
    · simpa [mapDelete, h] using ih
    · simp only [mapDelete, if_neg h, keysOf, List.map_cons, List.mem_cons]
      push_neg
      exact ⟨fun hh => h hh.symm, ih⟩

theorem keysOf_mapDelete_sublist {κ α : Type} [DecidableEq κ] (m : List (κ × α)) (k : κ) :
    List.Sublist (keysOf (mapDelete m k)) (keysOf m) := by
  induction m with
  | nil => simp [mapDelete]
  | cons p rest ih =>
    obtain ⟨k1, v1⟩ := p
    by_cases h : k1 = k
    · simpa [mapDelete, keysOf, h] using ih.cons k1
    · simpa [mapDelete, keysOf, h] using ih.cons₂ k1

theorem mem_keys_mapSet {κ α : Type} [DecidableEq κ] (m : List (κ × α)) (k x : κ) (v : α)
    (hx : x ∈ keysOf (mapSet m k v)) : x = k ∨ x ∈ keysOf m := by
  induction m with
  | nil => simpa [mapSet, keysOf] using hx
  | cons p rest ih =>
    obtain ⟨k1, v1⟩ := p
    by_cases h : k1 = k
    · subst h
      simpa [mapSet, keysOf] using hx
    · simp only [mapSet, if_neg h, keysOf, List.map_cons, List.mem_cons] at hx ⊢
      rcases hx with hx | hx
      · exact Or.inr (Or.inl hx)
      · rcases ih hx with hx | hx
        · exact Or.inl hx
        · exact Or.inr (Or.inr hx)

theorem nodupKeys_mapSet {κ α : Type} [DecidableEq κ] (m : List (κ × α)) (k : κ) (v : α)
    (h : nodupKeys m) : nodupKeys (mapSet m k v) := by
  induction m with
  | nil => simp [mapSet, nodupKeys, keysOf]
  | cons p rest ih =>
    obtain ⟨k1, v1⟩ := p
    simp only [nodupKeys, keysOf, List.map_cons, List.nodup_cons] at h
    by_cases hk : k1 = k
    · subst hk
      simpa [mapSet, nodupKeys, keysOf] using h
    · have tail := ih h.2
      simp only [mapSet, if_neg hk, nodupKeys, keysOf, List.map_cons, List.nodup_cons]
      refine ⟨fun hmem => ?_, tail⟩
      rcases mem_keys_mapSet rest k k1 v hmem with h1 | h1
      · exact hk h1
      · exact h.1 h1

theorem nodupKeys_mapDelete {κ α : Type} [DecidableEq κ] (m : List (κ × α)) (k : κ)
    (h : nodupKeys m) : nodupKeys (mapDelete m k) :=
  h.sublist (keysOf_mapDelete_sublist m k)

theorem mem_mapSet {κ α : Type} [DecidableEq κ] (m : List (κ × α)) (k : κ) (v : α)
    (p : κ × α) (hp : p ∈ mapSet m k v) : p ∈ m ∨ p = (k, v) := by
  induction m with
  | nil => simpa [mapSet] using hp
  | cons q rest ih =>
    obtain ⟨k1, v1⟩ := q
    by_cases h : k1 = k
    · subst h
      simp only [mapSet, if_true, List.mem_cons] at hp
      rcases hp with hp | hp
      · exact Or.inr hp
      · exact Or.inl (List.mem_cons_of_mem _ hp)
    · simp only [mapSet, if_neg h, List.mem_cons] at hp
      rcases hp with hp | hp
      · exact Or.inl (by simp [hp])
      · rcases ih hp with hh | hh
        · exact Or.inl (List.mem_cons_of_mem _ hh)
        · exact Or.inr hh

theorem mem_mapDelete {κ α : Type} [DecidableEq κ] (m : List (κ × α)) (k : κ)
    (p : κ × α) (hp : p ∈ mapDelete m k) : p ∈ m := by
  induction m with
  | nil => simp [mapDelete] at hp
  | cons q rest ih =>
    obtain ⟨k1, v1⟩ := q
    by_cases h : k1 = k
    · rw [mapDelete, if_pos h] at hp
      exact List.mem_cons_of_mem _ (ih hp)
    · simp only [mapDelete, if_neg h, List.mem_cons] at hp
      rcases hp with hp | hp
      · exact by simp [hp]
      · exact List.mem_cons_of_mem _ (ih hp)

theorem mapHas_delete_other {κ α : Type} [DecidableEq κ] (m : List (κ × α)) (k k' : κ)
    (h : k' ≠ k) : mapHas (mapDelete m k) k' = mapHas m k' := by
  simp [mapHas, mapGet_delete_other m k k' h]

/-! ### Registry step lemmas -/

theorem mapHas_set {κ α : Type} [DecidableEq κ] (m : List (κ × α)) (k k' : κ) (v : α) :
    mapHas (mapSet m k v) k' = if k' = k then true else mapHas m k' := by
  by_cases h : k' = k
  · subst h
    simp [mapHas, mapGet_set_self]
  · simp [mapHas, mapGet_set_other m k k' v h, h]

theorem mapHas_delete {κ α : Type} [DecidableEq κ] (m : List (κ × α)) (k k' : κ) :
    mapHas (mapDelete m k) k' = if k' = k then false else mapHas m k' := by
  by_cases h : k' = k
  · subst h
    simp [mapHas, mapGet_delete_self]
  · simp [mapHas, mapGet_delete_other m k k' h, h]

theorem mapGet_nil {κ α : Type} [DecidableEq κ] (k : κ) :
    mapGet ([] : List (κ × α)) k = none := rfl

theorem mapHas_nil {κ α : Type} [DecidableEq κ] (k : κ) :
    mapHas ([] : List (κ × α)) k = false := rfl

theorem mapHas_eq_false_iff {κ α : Type} [DecidableEq κ] (m : List (κ × α)) (k : κ) :
    mapHas m k = false ↔ mapGet m k = none := by
  cases h : mapGet m k <;> simp [mapHas, h]

theorem memberB_eq (rooms : Rooms) (r : RoomId) (c : ConnId) :
    memberB rooms r c = mapHas ((mapGet rooms r).getD []) c := rfl

theorem memberB_cons (rid : RoomId) (users : UserMap) (xs : Rooms) (r : RoomId) (c : ConnId) :
    memberB ((rid, users) :: xs) r c = if rid = r then mapHas users c else memberB xs r c := by
  by_cases h : rid = r <;> simp [memberB, mapGet, h]

/-- The registry part of the join handler in closed form: insert the
participant into the (possibly fresh) room map. -/
theorem joinRoom_fst (rooms : Rooms) (s : ConnId) (r : RoomId) (u n : String) :
    (joinRoom rooms s r u n).1 =
      mapSet rooms r (mapSet ((mapGet rooms r).getD []) s ⟨u, n⟩) := by
  by_cases h : mapHas rooms r
  · simp [joinRoom, h]
  · have hget : mapGet rooms r = none := (mapHas_eq_false_iff rooms r).mp (by simpa using h)
    simp [joinRoom, h, hget, mapGet_set_self, mapSet_set_same]

theorem memberB_join (rooms : Rooms) (s : ConnId) (r : RoomId) (u n : String)
    (r' : RoomId) (c : ConnId) :
    memberB ((joinRoom rooms s r u n).1) r' c =
      if s = c ∧ r = r' then true else memberB rooms r' c := by
  rw [joinRoom_fst]
  by_cases hr : r = r'
  · subst hr
    rw [memberB_eq, mapGet_set_self, Option.getD_some, mapHas_set]
    by_cases hc : c = s
    · subst hc
      rw [if_pos rfl, if_pos ⟨rfl, rfl⟩]
    · rw [if_neg hc, if_neg (fun hh : s = c ∧ r = r => hc hh.1.symm)]
      rfl
  · have hno : ¬(s = c ∧ r = r') := fun hh => hr hh.2
    rw [if_neg hno, memberB_eq, mapGet_set_other rooms r r' _ (Ne.symm hr)]
    rfl

theorem memberB_leave (rooms : Rooms) (s : ConnId) (r : RoomId) (r' : RoomId) (c : ConnId) :
    memberB ((leaveRoom rooms s r).1) r' c =
      if s = c ∧ r = r' then false else memberB rooms r' c := by
  cases hm : mapGet rooms r with
  | none =>
    simp only [leaveRoom, hm]
    by_cases hc : s = c ∧ r = r'
    · obtain ⟨rfl, rfl⟩ := hc
      rw [if_pos ⟨rfl, rfl⟩, memberB_eq, hm]
      rfl
    · rw [if_neg hc]
  | some users =>
    cases hu : mapGet users s with
    | none =>
      simp only [leaveRoom, hm, hu]
      by_cases hc : s = c ∧ r = r'
      · obtain ⟨rfl, rfl⟩ := hc
        rw [if_pos ⟨rfl, rfl⟩, memberB_eq, hm]
        simpa [mapHas] using hu
      · rw [if_neg hc]
    | some info =>
      simp only [leaveRoom, hm, hu]
      by_cases hr : r = r'
      · subst hr
        by_cases he : (mapDelete users s).isEmpty
        · rw [if_pos he]
          by_cases hc : c = s
          · subst hc
            rw [if_pos ⟨rfl, rfl⟩, memberB_eq, mapGet_delete_self]
            rfl
          · rw [if_neg (fun hh : s = c ∧ r = r => hc hh.1.symm)]
            have h3 : mapDelete users s = [] := by simpa [List.isEmpty_iff] using he
            have h4 : mapGet users c = none := by
              rw [← mapGet_delete_other users s c hc, h3]
              exact mapGet_nil c
            rw [memberB_eq, memberB_eq, mapGet_delete_self, hm]
            simp [mapHas, mapGet_nil, h4]
        · rw [if_neg he, memberB_eq, mapGet_set_self, Option.getD_some, mapHas_delete]
          by_cases hc : c = s
          · subst hc
            rw [if_pos rfl, if_pos ⟨rfl, rfl⟩]
          · rw [if_neg hc, if_neg (fun hh : s = c ∧ r = r => hc hh.1.symm), memberB_eq, hm]
            rfl
      · have hno : ¬(s = c ∧ r = r') := fun hh => hr hh.2
        rw [if_neg hno]
        by_cases he : (mapDelete users s).isEmpty
        · rw [if_pos he, memberB_eq, mapGet_delete_other rooms r r' (Ne.symm hr)]
          rfl
        · rw [if_neg he, memberB_eq, mapGet_set_other rooms r r' _ (Ne.symm hr)]
          rfl

theorem keysOf_disconnectGo_sublist (s : ConnId) (rooms : Rooms) :
    List.Sublist (keysOf (disconnectGo s rooms).1) (keysOf rooms) := by
  induction rooms with
  | nil => simp [disconnectGo]
  | cons p rest ih =>
    obtain ⟨rid, users⟩ := p
    cases hu : mapGet users s with
    | none => simpa [disconnectGo, hu, keysOf] using ih.cons₂ rid
    | some info =>
      by_cases he : (mapDelete users s).isEmpty = true
      · simpa [disconnectGo, hu, he, keysOf] using ih.cons rid
      · simpa [disconnectGo, hu, he, keysOf] using ih.cons₂ rid

theorem memberB_disconnectGo (rooms : Rooms) (s : ConnId) (r' : RoomId) (c : ConnId)
    (h : nodupKeys rooms) :
    memberB ((disconnectGo s rooms).1) r' c = if s = c then false else memberB rooms r' c := by
  induction rooms with
  | nil => simp [disconnectGo, memberB, mapGet, mapHas]
  | cons p rest ih =>
    obtain ⟨rid, users⟩ := p
    simp only [nodupKeys, keysOf, List.map_cons, List.nodup_cons] at h
    have hk : rid ∉ keysOf rest := h.1
    have hrest : nodupKeys rest := h.2
    cases hu : mapGet users s with
    | none =>
      simp only [disconnectGo, hu]
      rw [memberB_cons, memberB_cons]
      by_cases hr : rid = r'
      · rw [if_pos hr, if_pos hr]
        by_cases hsc : s = c
        · subst hsc
          simp [mapHas, hu]
        · rw [if_neg hsc]
      · rw [if_neg hr, if_neg hr, ih hrest]
    | some info =>
      simp only [disconnectGo, hu]
      by_cases he : (mapDelete users s).isEmpty = true
      · rw [if_pos he]
        rw [ih hrest, memberB_cons]
        by_cases hsc : s = c
        · rw [if_pos hsc, if_pos hsc]
        · rw [if_neg hsc, if_neg hsc]
          by_cases hr : rid = r'
          · rw [if_pos hr]
            subst hr
            have h1 : mapGet rest rid = none := mapGet_eq_none_of_not_mem_keys rest rid hk
            have h3 : mapDelete users s = [] := by simpa [List.isEmpty_iff] using he
            have hcs : c ≠ s := fun hh => hsc hh.symm
            have h4 : mapGet users c = none := by
              rw [← mapGet_delete_other users s c hcs, h3]
              exact mapGet_nil c
            simp [memberB, mapHas, h1, h4, mapGet_nil]
          · rw [if_neg hr]
      · rw [if_neg he]
        rw [memberB_cons, memberB_cons]
        by_cases hr : rid = r'
        · rw [if_pos hr, if_pos hr, mapHas_delete]
          by_cases hsc : s = c
          · subst hsc
            simp
          · rw [if_neg (fun hh : c = s => hsc hh.symm), if_neg hsc]
        · rw [if_neg hr, if_neg hr, ih hrest]

theorem memberB_disc (rooms : Rooms) (s : ConnId) (r' : RoomId) (c : ConnId)
    (h : nodupKeys rooms) :
    memberB ((disconnectHandler rooms s).1) r' c =
      if s = c then false else memberB rooms r' c :=
  memberB_disconnectGo rooms s r' c h

theorem nodupKeys_stepEvent (rooms : Rooms) (e : CEvent) (h : nodupKeys rooms) :
    nodupKeys (stepEvent rooms e) := by
  cases e with
  | join s r u n =>
    show nodupKeys (joinRoom rooms s r u n).1
    rw [joinRoom_fst]
    exact nodupKeys_mapSet rooms r _ h
  | leave s r =>
    show nodupKeys (leaveRoom rooms s r).1
    cases hm : mapGet rooms r with
    | none => simpa [leaveRoom, hm] using h
    | some users =>
      cases hu : mapGet users s with
      | none => simpa [leaveRoom, hm, hu] using h
      | some info =>
        by_cases he : (mapDelete users s).isEmpty = true
        · simpa [leaveRoom, hm, hu, he] using nodupKeys_mapDelete rooms r h
        · simpa [leaveRoom, hm, hu, he] using nodupKeys_mapSet rooms r (mapDelete users s) h
  | disc s =>
    show nodupKeys (disconnectHandler rooms s).1
    exact h.sublist (keysOf_disconnectGo_sublist s rooms)

theorem nodupKeys_foldl (tr : List CEvent) :
    ∀ st : Rooms, nodupKeys st → nodupKeys (tr.foldl stepEvent st) := by
  induction tr with
  | nil =>
    intro st h
    simpa using h
  | cons e rest ih =>
    intro st h
    exact ih _ (nodupKeys_stepEvent st e h)

theorem nodupKeys_runTrace (tr : List CEvent) : nodupKeys (runTrace tr) :=
  nodupKeys_foldl tr [] (by simp [nodupKeys, keysOf])

theorem memberB_nil (r : RoomId) (c : ConnId) : memberB [] r c = false := rfl

theorem memberB_foldl_spec (tr : List CEvent) (r : RoomId) (c : ConnId) :
    ∀ st : Rooms, nodupKeys st →
      memberB (tr.foldl stepEvent st) r c =
        tr.foldl (memberSpecStep r c) (memberB st r c) := by
  induction tr with
  | nil =>
    intro st _
    rfl
  | cons e rest ih =>
    intro st h
    have hstep : memberB (stepEvent st e) r c = memberSpecStep r c (memberB st r c) e := by
      cases e with
      | join s r2 u n => simp [stepEvent, memberSpecStep, memberB_join]
      | leave s r2 => simp [stepEvent, memberSpecStep, memberB_leave]
      | disc s => simp [stepEvent, memberSpecStep, memberB_disc st s r c h]
    rw [List.foldl_cons, List.foldl_cons, ih _ (nodupKeys_stepEvent st e h), hstep]

/-- C1.  Membership consistency: after any sequence of join-room,
leave-room and disconnect events, a connection is registered in a room
if and only if it has joined that room and has not since left it or
disconnected (the spec-side trace predicate `joinedNotLeft`). -/
theorem membership_consistency (tr : List CEvent) (r : RoomId) (c : ConnId) :
    memberB (runTrace tr) r c = joinedNotLeft tr r c := by
  have h := memberB_foldl_spec tr r c [] (by simp [nodupKeys, keysOf])
  rw [runTrace, joinedNotLeft, ← memberB_nil r c]
  exact h

theorem goodRooms_disconnectGo (s : ConnId) (rooms : Rooms)
    (h : ∀ p ∈ rooms, p.2 ≠ ([] : UserMap)) :
    ∀ p ∈ (disconnectGo s rooms).1, p.2 ≠ ([] : UserMap) := by
  induction rooms with
  | nil =>
    intro p hp
    simp [disconnectGo] at hp
  | cons q rest ih =>
    obtain ⟨rid, users⟩ := q
    have hh : ∀ p ∈ rest, p.2 ≠ ([] : UserMap) := fun p hp =>
      h p (List.mem_cons_of_mem _ hp)
    cases hu : mapGet users s with
    | none =>
      intro p hp
      simp only [disconnectGo, hu, List.mem_cons] at hp
      rcases hp with hp | hp
      · subst hp
        exact h (rid, users) (List.mem_cons_self _ _)
      · exact ih hh p hp
    | some info =>
      intro p hp
      by_cases he : (mapDelete users s).isEmpty = true
      · simp only [disconnectGo, hu, he, if_true] at hp
        exact ih hh p hp
      · simp only [disconnectGo, hu, he, Bool.false_eq_true, if_false, List.mem_cons] at hp
        rcases hp with hp | hp
        · subst hp
          exact fun hnil => he (by
            have h2 : mapDelete users s = [] := hnil
            rw [h2]
            rfl)
        · exact ih hh p hp

theorem goodRooms_stepEvent (st : Rooms) (e : CEvent)
    (h : ∀ p ∈ st, p.2 ≠ ([] : UserMap)) :
    ∀ p ∈ stepEvent st e, p.2 ≠ ([] : UserMap) := by
  cases e with
  | join s r u n =>
    intro p hp
    rw [stepEvent, joinRoom_fst] at hp
    rcases mem_mapSet st r _ p hp with hh | hh
    · exact h p hh
    · subst hh
      exact mapSet_ne_nil _ s _
  | leave s r =>
    intro p hp
    simp only [stepEvent] at hp
    cases hm : mapGet st r with
    | none =>
      simp only [leaveRoom, hm] at hp
      exact h p hp
    | some users =>
      cases hu : mapGet users s with
      | none =>
        simp only [leaveRoom, hm, hu] at hp
        exact h p hp
      | some info =>
        by_cases he : (mapDelete users s).isEmpty = true
        · simp only [leaveRoom, hm, hu, he, if_true] at hp
          exact h p (mem_mapDelete st r p hp)
        · simp only [leaveRoom, hm, hu, he, Bool.false_eq_true, if_false] at hp
          rcases mem_mapSet st r _ p hp with hh | hh
          · exact h p hh
          · subst hh
            exact fun hnil => he (by
            have h2 : mapDelete users s = [] := hnil
            rw [h2]
            rfl)
  | disc s =>
    exact goodRooms_disconnectGo s st h

theorem goodRooms_runTrace (tr : List CEvent) :
    ∀ p ∈ runTrace tr, p.2 ≠ ([] : UserMap) := by
  rw [runTrace]
  generalize hst : ([] : Rooms) = st
  have h0 : ∀ p ∈ st, p.2 ≠ ([] : UserMap) := by
    intro p hp
    rw [← hst] at hp
    simp at hp
  clear hst
  induction tr generalizing st with
  | nil => exact h0
  | cons e rest ih => exact ih (stepEvent st e) (goodRooms_stepEvent st e h0)

theorem disconnectGo_get_singleton (rooms : Rooms) (s : ConnId) (r : RoomId) (info : UserInfo)
    (hnd : nodupKeys rooms) (hget : mapGet rooms r = some [(s, info)]) :
    mapGet (disconnectGo s rooms).1 r = none := by
  induction rooms with
  | nil => simp [mapGet] at hget
  | cons q rest ih =>
    obtain ⟨rid, users⟩ := q
    simp only [nodupKeys, keysOf, List.map_cons, List.nodup_cons] at hnd
    by_cases hr : rid = r
    · subst hr
      have husers : users = [(s, info)] := by
        simpa [mapGet] using hget
      subst husers
      have hu : mapGet [(s, info)] s = some info := by simp [mapGet]
      have hdel : mapDelete [(s, info)] s = [] := by simp [mapDelete]
      simp only [disconnectGo, hu, hdel, List.isEmpty_nil, if_true]
      exact mapGet_eq_none_of_not_mem_keys _ rid
        (fun hmem => hnd.1 ((keysOf_disconnectGo_sublist s rest).subset hmem))
    · have hget2 : mapGet rest r = some [(s, info)] := by
        simp only [mapGet, if_neg hr] at hget
        exact hget
      have ihr := ih hnd.2 hget2
      cases hu : mapGet users s with
      | none =>
        simp only [disconnectGo, hu, mapGet, if_neg hr]
        exact ihr
      | some info2 =>
        by_cases he : (mapDelete users s).isEmpty = true
        · simp only [disconnectGo, hu, he, if_true]
          exact ihr
        · simp only [disconnectGo, hu, he, Bool.false_eq_true, if_false, mapGet, if_neg hr]
          exact ihr

/-- C3.  Room garbage collection: in every reachable registry state every
room entry holds at least one participant, and from a state where a room
holds exactly one participant, a leave-room or a disconnect of that
participant deletes the room entry itself, so that the room id is no
longer a key and listParticipants returns empty. -/
theorem room_gc (tr : List CEvent) (r : RoomId) (c : ConnId) (info : UserInfo) :
    (∀ p ∈ runTrace tr, p.2 ≠ ([] : UserMap)) ∧
    (mapGet (runTrace tr) r = some [(c, info)] →
      (mapHas (stepEvent (runTrace tr) (.leave c r)) r = false ∧
        listParticipants (stepEvent (runTrace tr) (.leave c r)) r = []) ∧
      (mapHas (stepEvent (runTrace tr) (.disc c)) r = false ∧
        listParticipants (stepEvent (runTrace tr) (.disc c)) r = [])) := by
  refine ⟨goodRooms_runTrace tr, fun hget => ⟨?_, ?_⟩⟩
  · have hu : mapGet [(c, info)] c = some info := by simp [mapGet]
    have hdel : mapDelete [(c, info)] c = [] := by simp [mapDelete]
    have hl : stepEvent (runTrace tr) (.leave c r) = mapDelete (runTrace tr) r := by
      simp [stepEvent, leaveRoom, hget, hu, hdel]
    rw [hl]
    constructor
    · rw [mapHas_eq_false_iff]
      exact mapGet_delete_self _ r
    · rw [listParticipants, mapGet_delete_self]
      rfl
  · have hd : mapGet (stepEvent (runTrace tr) (.disc c)) r = none :=
      disconnectGo_get_singleton (runTrace tr) c r info (nodupKeys_runTrace tr) hget
    constructor
    · rw [mapHas_eq_false_iff]
      exact hd
    · rw [listParticipants, hd]
      rfl

/-- Witness for C3 at a concrete trace: after Alice joins room r1, room
r1 holds her alone, and both her leave and her disconnect delete the
room entry. -/
theorem room_gc_witness :
    (∀ p ∈ runTrace [CEvent.join "A" "r1" "u1" "Alice"], p.2 ≠ ([] : UserMap)) ∧
    ((mapHas (stepEvent (runTrace [CEvent.join "A" "r1" "u1" "Alice"])
        (.leave "A" "r1")) "r1" = false ∧
      listParticipants (stepEvent (runTrace [CEvent.join "A" "r1" "u1" "Alice"])
        (.leave "A" "r1")) "r1" = []) ∧
     (mapHas (stepEvent (runTrace [CEvent.join "A" "r1" "u1" "Alice"])
        (.disc "A")) "r1" = false ∧
      listParticipants (stepEvent (runTrace [CEvent.join "A" "r1" "u1" "Alice"])
        (.disc "A")) "r1" = [])) :=
  ⟨(room_gc [CEvent.join "A" "r1" "u1" "Alice"] "r1" "A" ⟨"u1", "Alice"⟩).1,
   (room_gc [CEvent.join "A" "r1" "u1" "Alice"] "r1" "A" ⟨"u1", "Alice"⟩).2 (by rfl)⟩

/-- C7 counterexample: a connection that joins room r2 while registered
in room r1 is afterwards registered in both rooms at once, refuting the
claimed at-most-one-room invariant. -/
theorem single_room_counterexample :
    memberB (runTrace [CEvent.join "A" "r1" "u" "n", CEvent.join "A" "r2" "u" "n"])
        "r1" "A" = true ∧
    memberB (runTrace [CEvent.join "A" "r1" "u" "n", CEvent.join "A" "r2" "u" "n"])
        "r2" "A" = true ∧
    ("r1" : RoomId) ≠ "r2" :=
  ⟨rfl, rfl, by decide⟩

/-- C7 amended: join-room does not unregister the connection from any
other room, so a connection that is in room r1 and joins room r2 is
registered in both rooms at once (until a leave or disconnect). -/
theorem join_second_room_keeps_first (rooms : Rooms) (c : ConnId) (r1 r2 : RoomId)
    (u n : String) (hr : r1 ≠ r2) (hm : memberB rooms r1 c = true) :
    memberB ((joinRoom rooms c r2 u n).1) r1 c = true ∧
    memberB ((joinRoom rooms c r2 u n).1) r2 c = true := by
  constructor
  · rw [memberB_join, if_neg (fun hh : c = c ∧ r2 = r1 => hr hh.2.symm)]
    exact hm
  · rw [memberB_join, if_pos ⟨rfl, rfl⟩]

/-- Witness for the amended C7 at a concrete state. -/
theorem join_second_room_keeps_first_witness :
    memberB ((joinRoom [("r1", [("A", ⟨"u", "n"⟩)])] "A" "r2" "u" "n").1) "r1" "A" = true ∧
    memberB ((joinRoom [("r1", [("A", ⟨"u", "n"⟩)])] "A" "r2" "u" "n").1) "r2" "A" = true :=
  join_second_room_keeps_first [("r1", [("A", ⟨"u", "n"⟩)])] "A" "r1" "r2" "u" "n"
    (by decide) rfl

/-- C8.  leave-room is exact: a non-member leave (room absent or socket
not registered there) returns the registry unchanged and emits nothing;
a member leave unregisters exactly the leaver, broadcasts one user-left
event carrying its user info and socket id to precisely the remaining
participants of that room, and changes no other membership. -/
theorem leave_room_exact (rooms : Rooms) (sock : ConnId) (rid : RoomId) :
    (memberB rooms rid sock = false → leaveRoom rooms sock rid = (rooms, [])) ∧
    (∀ users info, mapGet rooms rid = some users → mapGet users sock = some info →
      memberB (leaveRoom rooms sock rid).1 rid sock = false ∧
      (leaveRoom rooms sock rid).2 =
        [⟨true, participantIds (leaveRoom rooms sock rid).1 rid,
          .userLeft info.userId info.userName sock⟩] ∧
      (∀ c, c ≠ sock → ∀ r', memberB (leaveRoom rooms sock rid).1 r' c = memberB rooms r' c) ∧
      (∀ r', r' ≠ rid →
        memberB (leaveRoom rooms sock rid).1 r' sock = memberB rooms r' sock)) := by
  constructor
  · intro hmem
    cases hm : mapGet rooms rid with
    | none => simp [leaveRoom, hm]
    | some users =>
      have h1 : mapHas users sock = false := by
        rw [memberB_eq, hm] at hmem
        exact hmem
      have h2 : mapGet users sock = none := (mapHas_eq_false_iff users sock).mp h1
      simp [leaveRoom, hm, h2]
  · intro users info hm hu
    refine ⟨?_, ?_, ?_, ?_⟩
    · rw [memberB_leave, if_pos ⟨rfl, rfl⟩]
    · by_cases he : (mapDelete users sock).isEmpty = true
      · have hdel : mapDelete users sock = [] := by
          simpa [List.isEmpty_iff] using he
        simp [leaveRoom, hm, hu, he, participantIds, mapGet_delete_self, hdel]
      · simp [leaveRoom, hm, hu, he, participantIds, mapGet_set_self]
    · intro c hc r'
      rw [memberB_leave, if_neg (fun hh : sock = c ∧ rid = r' => hc hh.1.symm)]
    · intro r' hr'
      rw [memberB_leave, if_neg (fun hh : sock = sock ∧ rid = r' => hr' hh.2.symm)]

/-- Witness for C8: leaving as a non-member is a silent no-op, and
Alice leaving a two-member room unregisters exactly her. -/
theorem leave_room_exact_witness :
    leaveRoom [("r1", [("A", ⟨"u1", "Alice"⟩)])] "B" "r1" =
      ([("r1", [("A", ⟨"u1", "Alice"⟩)])], []) ∧
    memberB (leaveRoom [("r1", [("A", ⟨"u1", "Alice"⟩), ("B", ⟨"u2", "Bob"⟩)])]
        "A" "r1").1 "r1" "A" = false ∧
    memberB (leaveRoom [("r1", [("A", ⟨"u1", "Alice"⟩), ("B", ⟨"u2", "Bob"⟩)])]
        "A" "r1").1 "r1" "B" = true :=
  ⟨(leave_room_exact [("r1", [("A", ⟨"u1", "Alice"⟩)])] "B" "r1").1 rfl,
   ((leave_room_exact [("r1", [("A", ⟨"u1", "Alice"⟩), ("B", ⟨"u2", "Bob"⟩)])]
      "A" "r1").2 [("A", ⟨"u1", "Alice"⟩), ("B", ⟨"u2", "Bob"⟩)] ⟨"u1", "Alice"⟩ rfl rfl).1,
   (((leave_room_exact [("r1", [("A", ⟨"u1", "Alice"⟩), ("B", ⟨"u2", "Bob"⟩)])]
      "A" "r1").2 [("A", ⟨"u1", "Alice"⟩), ("B", ⟨"u2", "Bob"⟩)] ⟨"u1", "Alice"⟩ rfl rfl).2.2.1
      "B" (by decide) "r1").trans rfl⟩

theorem snd_mem_mapSet {κ α : Type} [DecidableEq κ] (m : List (κ × α)) (k : κ) (v : α) :
    v ∈ (mapSet m k v).map Prod.snd := by
  induction m with
  | nil => simp [mapSet]
  | cons p rest ih =>
    obtain ⟨k1, v1⟩ := p
    by_cases h : k1 = k <;> simp [mapSet, h, ih]

theorem mem_keys_of_mapHas {κ α : Type} [DecidableEq κ] (m : List (κ × α)) (k : κ)
    (h : mapHas m k = true) : k ∈ keysOf m := by
  induction m with
  | nil => simp [mapHas, mapGet] at h
  | cons p rest ih =>
    obtain ⟨k1, v1⟩ := p
    by_cases hk : k1 = k
    · simp [keysOf, hk]
    · simp only [mapHas, mapGet, if_neg hk] at h
      simp only [keysOf, List.map_cons, List.mem_cons]
      exact Or.inr (ih h)

theorem mem_keys_mapSet_of_mem {κ α : Type} [DecidableEq κ] (m : List (κ × α)) (k x : κ)
    (v : α) (hx : x ∈ keysOf m) : x ∈ keysOf (mapSet m k v) := by
  induction m with
  | nil => simp [keysOf] at hx
  | cons p rest ih =>
    obtain ⟨k1, v1⟩ := p
    simp only [keysOf, List.map_cons, List.mem_cons] at hx
    by_cases h : k1 = k
    · subst h
      rcases hx with hx | hx <;> simp [mapSet, keysOf, hx]
    · simp only [mapSet, if_neg h, keysOf, List.map_cons, List.mem_cons]
      rcases hx with hx | hx
      · exact Or.inl hx
      · exact Or.inr (ih hx)

theorem not_mem_broadcastTo (rooms : Rooms) (rid : RoomId) (sock : ConnId) :
    sock ∉ broadcastTo rooms rid sock := by
  intro h
  have := (List.mem_filter.mp h).2
  simp at this

/-- C2 counterexample: with Alice already in room r1, Bob's join makes
the hub send Bob a room-users list that contains Bob himself — the
post-insertion snapshot — so it is not the claimed list holding only
Alice. -/
theorem join_notify_counterexample :
    (joinRoom (joinRoom [] "A" "r1" "u1" "Alice").1 "B" "r1" "u2" "Bob").2 =
      [⟨true, ["A"], .userJoined "u2" "Bob" "B"⟩,
       ⟨false, ["B"], .roomUsers [⟨"u1", "Alice"⟩, ⟨"u2", "Bob"⟩]⟩] ∧
    ([⟨"u1", "Alice"⟩, ⟨"u2", "Bob"⟩] : List UserInfo) ≠ [⟨"u1", "Alice"⟩] :=
  ⟨rfl, by decide⟩

/-- C2 amended: joining emits exactly a user-joined broadcast (targets:
the post-join room minus the joiner) followed by a room-users message
sent directly and only to the joiner whose payload is the post-insertion
participant snapshot — which therefore contains the joiner itself — and
every member present before the join, other than the joiner, is a target
of the user-joined broadcast. -/
theorem join_notify (rooms : Rooms) (sock : ConnId) (rid : RoomId) (u n : String) :
    (joinRoom rooms sock rid u n).2 =
      [⟨true, broadcastTo (joinRoom rooms sock rid u n).1 rid sock, .userJoined u n sock⟩,
       ⟨false, [sock],
        .roomUsers (listParticipants (joinRoom rooms sock rid u n).1 rid)⟩] ∧
    (⟨u, n⟩ : UserInfo) ∈ listParticipants (joinRoom rooms sock rid u n).1 rid ∧
    (∀ c, memberB rooms rid c = true → c ≠ sock →
      c ∈ broadcastTo (joinRoom rooms sock rid u n).1 rid sock) := by
  refine ⟨rfl, ?_, ?_⟩
  · rw [joinRoom_fst, listParticipants, mapGet_set_self, Option.getD_some]
    exact snd_mem_mapSet ((mapGet rooms rid).getD []) sock (⟨u, n⟩ : UserInfo)
  · intro c hc hcs
    rw [joinRoom_fst, broadcastTo, mapGet_set_self, Option.getD_some]
    apply List.mem_filter.mpr
    refine ⟨?_, by simp [hcs]⟩
    have h1 : c ∈ keysOf ((mapGet rooms rid).getD []) :=
      mem_keys_of_mapHas _ c hc
    exact mem_keys_mapSet_of_mem _ sock c _ h1

/-- Witness for the amended C2 in the Alice and Bob scenario: Bob's own
entry is in the room-users payload he receives, and Alice is targeted by
the user-joined broadcast. -/
theorem join_notify_witness :
    (⟨"u2", "Bob"⟩ : UserInfo) ∈
      listParticipants (joinRoom [("r1", [("A", ⟨"u1", "Alice"⟩)])]
        "B" "r1" "u2" "Bob").1 "r1" ∧
    "A" ∈ broadcastTo (joinRoom [("r1", [("A", ⟨"u1", "Alice"⟩)])]
        "B" "r1" "u2" "Bob").1 "r1" "B" :=
  ⟨(join_notify [("r1", [("A", ⟨"u1", "Alice"⟩)])] "B" "r1" "u2" "Bob").2.1,
   (join_notify [("r1", [("A", ⟨"u1", "Alice"⟩)])] "B" "r1" "u2" "Bob").2.2
     "A" rfl (by decide)⟩

theorem disconnectGo_no_self (s : ConnId) (rooms : Rooms) :
    ∀ e ∈ (disconnectGo s rooms).2, s ∉ e.targets := by
  induction rooms with
  | nil =>
    intro e he
    simp [disconnectGo] at he
  | cons q rest ih =>
    obtain ⟨rid, users⟩ := q
    cases hu : mapGet users s with
    | none =>
      intro e he
      simp only [disconnectGo, hu] at he
      exact ih e he
    | some info =>
      intro e he
      have hkey : s ∉ (mapDelete users s).map Prod.fst :=
        not_mem_keys_mapDelete_self users s
      by_cases hemp : (mapDelete users s).isEmpty = true
      · simp only [disconnectGo, hu, hemp, if_true, List.mem_cons] at he
        rcases he with he | he
        · subst he
          exact hkey
        · exact ih e he
      · simp only [disconnectGo, hu, hemp, Bool.false_eq_true, if_false,
          List.mem_cons] at he
        rcases he with he | he
        · subst he
          exact hkey
        · exact ih e he

theorem mapHas_iff_mem_keys {κ α : Type} [DecidableEq κ] (m : List (κ × α)) (k : κ) :
    mapHas m k = true ↔ k ∈ keysOf m := by
  induction m with
  | nil => simp [mapHas, mapGet, keysOf]
  | cons p rest ih =>
    obtain ⟨k1, v1⟩ := p
    by_cases h : k1 = k
    · simp [mapHas, mapGet, keysOf, h]
    · simp only [mapHas, mapGet, if_neg h, keysOf, List.map_cons, List.mem_cons]
      rw [← keysOf, ← mapHas, ih]
      constructor
      · exact fun hh => Or.inr hh
      · rintro (hh | hh)
        · exact absurd hh.symm h
        · exact hh

theorem mem_keys_mapDelete_iff {κ α : Type} [DecidableEq κ] (m : List (κ × α)) (k x : κ) :
    x ∈ keysOf (mapDelete m k) ↔ (x ∈ keysOf m ∧ x ≠ k) := by
  induction m with
  | nil => simp [mapDelete, keysOf]
  | cons p rest ih =>
    obtain ⟨k1, v1⟩ := p
    by_cases h : k1 = k
    · subst h
      rw [mapDelete, if_pos rfl, ih]
      simp only [keysOf, List.map_cons, List.mem_cons]
      constructor
      · rintro ⟨h1, h2⟩
        exact ⟨Or.inr h1, h2⟩
      · rintro ⟨h1 | h1, h2⟩
        · exact absurd h1 h2
        · exact ⟨h1, h2⟩
    · rw [mapDelete, if_neg h]
      simp only [keysOf, List.map_cons, List.mem_cons]
      rw [← keysOf, ← keysOf, ih]
      constructor
      · rintro (h1 | ⟨h1, h2⟩)
        · exact ⟨Or.inl h1, fun hx => h (h1 ▸ hx)⟩
        · exact ⟨Or.inr h1, h2⟩
      · rintro ⟨h1 | h1, h2⟩
        · exact Or.inl h1
        · exact Or.inr ⟨h1, h2⟩

theorem mem_broadcastTo_iff (rooms : Rooms) (rid : RoomId) (sock c : ConnId) :
    c ∈ broadcastTo rooms rid sock ↔ (memberB rooms rid c = true ∧ c ≠ sock) := by
  rw [broadcastTo, List.mem_filter, memberB_eq]
  constructor
  · rintro ⟨h1, h2⟩
    simp only [decide_eq_true_eq] at h2
    exact ⟨(mapHas_iff_mem_keys _ c).mpr h1, h2⟩
  · rintro ⟨h1, h2⟩
    refine ⟨(mapHas_iff_mem_keys _ c).mp h1, by simp [h2]⟩

theorem mem_broadcastTo_join_iff (rooms : Rooms) (sock : ConnId) (rid : RoomId)
    (u n : String) (c : ConnId) :
    c ∈ broadcastTo (joinRoom rooms sock rid u n).1 rid sock ↔
      (memberB rooms rid c = true ∧ c ≠ sock) := by
  rw [mem_broadcastTo_iff]
  constructor
  · rintro ⟨hm, hcs⟩
    rw [memberB_join, if_neg (fun hh : sock = c ∧ rid = rid => hcs hh.1.symm)] at hm
    exact ⟨hm, hcs⟩
  · rintro ⟨hm, hcs⟩
    refine ⟨?_, hcs⟩
    rw [memberB_join, if_neg (fun hh : sock = c ∧ rid = rid => hcs hh.1.symm)]
    exact hm

theorem disconnectGo_complete (sock : ConnId) (rooms : Rooms) :
    ∀ rid users info, mapGet rooms rid = some users → mapGet users sock = some info →
      ∃ e, e ∈ (disconnectGo sock rooms).2 ∧ e.isBroadcast = true ∧
        e.payload = .userLeft info.userId info.userName sock ∧
        (∀ c, c ∈ e.targets ↔ (memberB rooms rid c = true ∧ c ≠ sock)) := by
  induction rooms with
  | nil =>
    intro rid users info hget _
    simp [mapGet] at hget
  | cons q rest ih =>
    obtain ⟨rid0, users0⟩ := q
    intro rid users info hget hu
    by_cases hr : rid0 = rid
    · subst hr
      have husers : users0 = users := by simpa [mapGet] using hget
      subst husers
      have hiff : ∀ c, c ∈ (mapDelete users0 sock).map Prod.fst ↔
          (memberB ((rid0, users0) :: rest) rid0 c = true ∧ c ≠ sock) := by
        intro c
        rw [memberB_cons, if_pos rfl]
        constructor
        · intro hc
          obtain ⟨h1, h2⟩ := (mem_keys_mapDelete_iff users0 sock c).mp hc
          exact ⟨(mapHas_iff_mem_keys users0 c).mpr h1, h2⟩
        · rintro ⟨h1, h2⟩
          exact (mem_keys_mapDelete_iff users0 sock c).mpr
            ⟨(mapHas_iff_mem_keys users0 c).mp h1, h2⟩
      by_cases he : (mapDelete users0 sock).isEmpty = true
      · refine ⟨⟨true, (mapDelete users0 sock).map Prod.fst,
          .userLeft info.userId info.userName sock⟩, ?_, rfl, rfl, hiff⟩
        simp [disconnectGo, hu, he]
      · refine ⟨⟨true, (mapDelete users0 sock).map Prod.fst,
          .userLeft info.userId info.userName sock⟩, ?_, rfl, rfl, hiff⟩
        simp [disconnectGo, hu, he]
    · have hget2 : mapGet rest rid = some users := by
        simp only [mapGet, if_neg hr] at hget
        exact hget
      obtain ⟨e, hmem, hb, hp, hiff⟩ := ih rid users info hget2 hu
      refine ⟨e, ?_, hb, hp, ?_⟩
      · cases hu0 : mapGet users0 sock with
        | none =>
          simp only [disconnectGo, hu0]
          exact hmem
        | some info0 =>
          by_cases he : (mapDelete users0 sock).isEmpty = true
          · simp only [disconnectGo, hu0, he, if_true]
            exact List.mem_cons_of_mem _ hmem
          · simp only [disconnectGo, hu0, he, Bool.false_eq_true, if_false]
            exact List.mem_cons_of_mem _ hmem
      · intro c
        rw [memberB_cons, if_neg hr]
        exact hiff c

/-- C4.  No self-echo, with exact delivery: every broadcast emission
performed by any handler — the four relay handlers and the join, leave
and disconnect lifecycle handlers — is delivered to exactly the
connections of the target room other than the originating socket: the
originator is never among the targets, and every other connection of
the room is. -/
theorem no_self_echo (rooms : Rooms) (sock : ConnId)
    (rid code lang uid uname pos : String) (now : Nat) :
    (∀ e ∈ (codeChangeRelay rooms sock rid code lang uid now).2,
      e.isBroadcast = true ∧ sock ∉ e.targets ∧
      (∀ c, c ∈ e.targets ↔ (memberB rooms rid c = true ∧ c ≠ sock))) ∧
    (∀ e ∈ (cursorChangeRelay rooms sock rid pos uid uname).2,
      e.isBroadcast = true ∧ sock ∉ e.targets ∧
      (∀ c, c ∈ e.targets ↔ (memberB rooms rid c = true ∧ c ≠ sock))) ∧
    (∀ e ∈ (languageChangeRelay rooms sock rid lang uid).2,
      e.isBroadcast = true ∧ sock ∉ e.targets ∧
      (∀ c, c ∈ e.targets ↔ (memberB rooms rid c = true ∧ c ≠ sock))) ∧
    (∀ e ∈ (runCodeRelay rooms sock rid code lang uid now).2,
      e.isBroadcast = true ∧ sock ∉ e.targets ∧
      (∀ c, c ∈ e.targets ↔ (memberB rooms rid c = true ∧ c ≠ sock))) ∧
    (∀ e ∈ (joinRoom rooms sock rid uid uname).2, e.isBroadcast = true →
      sock ∉ e.targets ∧
      (∀ c, c ∈ e.targets ↔ (memberB rooms rid c = true ∧ c ≠ sock))) ∧
    (∀ e ∈ (leaveRoom rooms sock rid).2,
      e.isBroadcast = true ∧ sock ∉ e.targets ∧
      (∀ c, c ∈ e.targets ↔ (memberB rooms rid c = true ∧ c ≠ sock))) ∧
    (∀ e ∈ (disconnectHandler rooms sock).2,
      e.isBroadcast = true → sock ∉ e.targets) ∧
    (∀ rid2 users info, mapGet rooms rid2 = some users → mapGet users sock = some info →
      ∃ e, e ∈ (disconnectHandler rooms sock).2 ∧ e.isBroadcast = true ∧
        e.payload = .userLeft info.userId info.userName sock ∧
        (∀ c, c ∈ e.targets ↔ (memberB rooms rid2 c = true ∧ c ≠ sock))) := by
  refine ⟨?_, ?_, ?_, ?_, ?_, ?_, ?_, ?_⟩
  · intro e he
    rw [codeChangeRelay, List.mem_singleton] at he
    subst he
    exact ⟨rfl, not_mem_broadcastTo rooms rid sock, fun c => mem_broadcastTo_iff rooms rid sock c⟩
  · intro e he
    rw [cursorChangeRelay, List.mem_singleton] at he
    subst he
    exact ⟨rfl, not_mem_broadcastTo rooms rid sock, fun c => mem_broadcastTo_iff rooms rid sock c⟩
  · intro e he
    rw [languageChangeRelay, List.mem_singleton] at he
    subst he
    exact ⟨rfl, not_mem_broadcastTo rooms rid sock, fun c => mem_broadcastTo_iff rooms rid sock c⟩
  · intro e he
    rw [runCodeRelay, List.mem_singleton] at he
    subst he
    exact ⟨rfl, not_mem_broadcastTo rooms rid sock, fun c => mem_broadcastTo_iff rooms rid sock c⟩
  · intro e he hb
    simp only [joinRoom, List.mem_cons, List.mem_singleton] at he
    rcases he with he | he | he
    · subst he
      exact ⟨not_mem_broadcastTo _ rid sock,
        fun c => mem_broadcastTo_join_iff rooms sock rid uid uname c⟩
    · subst he
      simp at hb
    · simp at he
  · intro e he
    cases hm : mapGet rooms rid with
    | none => simp [leaveRoom, hm] at he
    | some users =>
      cases hu : mapGet users sock with
      | none => simp [leaveRoom, hm, hu] at he
      | some info =>
        simp only [leaveRoom, hm, hu, List.mem_singleton] at he
        subst he
        refine ⟨rfl, not_mem_keys_mapDelete_self users sock, fun c => ?_⟩
        rw [memberB_eq, hm]
        constructor
        · intro hc
          obtain ⟨h1, h2⟩ := (mem_keys_mapDelete_iff users sock c).mp hc
          exact ⟨(mapHas_iff_mem_keys users c).mpr h1, h2⟩
        · rintro ⟨h1, h2⟩
          exact (mem_keys_mapDelete_iff users sock c).mpr
            ⟨(mapHas_iff_mem_keys users c).mp h1, h2⟩
  · exact fun e he _ => disconnectGo_no_self sock rooms e he
  · exact fun rid2 users info hget hu => disconnectGo_complete sock rooms rid2 users info hget hu

/-- Witness for C4: in the concrete two-member room, the code-change
broadcast originated by Bob does not target Bob and does target Alice,
and the disconnect of Bob produces a user-left broadcast for the room
whose targets are exactly the members other than Bob. -/
theorem no_self_echo_witness :
    (("B" : ConnId) ∉
      (Emission.mk true
        (broadcastTo [("r1", [("A", ⟨"u1", "Alice"⟩), ("B", ⟨"u2", "Bob"⟩)])] "r1" "B")
        (.codeUpdate "x=1" "js" "u2" 0)).targets) ∧
    (("A" : ConnId) ∈
      (Emission.mk true
        (broadcastTo [("r1", [("A", ⟨"u1", "Alice"⟩), ("B", ⟨"u2", "Bob"⟩)])] "r1" "B")
        (.codeUpdate "x=1" "js" "u2" 0)).targets) ∧
    (∃ e, e ∈ (disconnectHandler
        [("r1", [("A", ⟨"u1", "Alice"⟩), ("B", ⟨"u2", "Bob"⟩)])] "B").2 ∧
      e.isBroadcast = true ∧
      e.payload = .userLeft "u2" "Bob" "B" ∧
      (∀ c, c ∈ e.targets ↔
        (memberB [("r1", [("A", ⟨"u1", "Alice"⟩), ("B", ⟨"u2", "Bob"⟩)])] "r1" c = true ∧
          c ≠ "B"))) := by
  refine ⟨?_, ?_, ?_⟩
  · exact ((no_self_echo [("r1", [("A", ⟨"u1", "Alice"⟩), ("B", ⟨"u2", "Bob"⟩)])]
      "B" "r1" "x=1" "js" "u2" "Bob" "p" 0).1 _ (List.mem_singleton.mpr rfl)).2.1
  · exact (((no_self_echo [("r1", [("A", ⟨"u1", "Alice"⟩), ("B", ⟨"u2", "Bob"⟩)])]
      "B" "r1" "x=1" "js" "u2" "Bob" "p" 0).1 _ (List.mem_singleton.mpr rfl)).2.2
      "A").mpr ⟨rfl, by decide⟩
  · exact (no_self_echo [("r1", [("A", ⟨"u1", "Alice"⟩), ("B", ⟨"u2", "Bob"⟩)])]
      "B" "r1" "x=1" "js" "u2" "Bob" "p" 0).2.2.2.2.2.2.2 "r1"
      [("A", ⟨"u1", "Alice"⟩), ("B", ⟨"u2", "Bob"⟩)] ⟨"u2", "Bob"⟩ rfl rfl

theorem handleCodeChange_local (ctx : ClientCtx) (st : ClientState) (v : Code)
    (rid uid : String) (hr : st.isRemote = false) (hc : ctx.connected = true)
    (hrid : ctx.roomId = some rid) (huid : ctx.userId = some uid) :
    handleCodeChange ctx st v =
      ({ st with
          localCode := v
          pending := some (.codeChange rid v ctx.language uid) }, []) := by
  simp [handleCodeChange, hr, hc, hrid, huid]

theorem runEdits_coalesce (ctx : ClientCtx) (rid uid : String)
    (hc : ctx.connected = true) (hrid : ctx.roomId = some rid)
    (huid : ctx.userId = some uid) :
    ∀ (edits : List Code) (v : Code) (st : ClientState), st.isRemote = false →
      runEdits ctx st (v :: edits) =
        ({ st with
            localCode := edits.getLastD v
            pending := some (.codeChange rid (edits.getLastD v) ctx.language uid) },
         []) := by
  intro edits
  induction edits with
  | nil =>
    intro v st hst
    simp [runEdits, handleCodeChange_local ctx st v rid uid hst hc hrid huid]
  | cons w rest ih =>
    intro v st hst
    rw [runEdits, handleCodeChange_local ctx st v rid uid hst hc hrid huid]
    rw [ih w { st with
        localCode := v
        pending := some (.codeChange rid v ctx.language uid) } hst]
    rw [List.getLastD_cons]
    rfl

/-- C5.  Debounce coalescing: a burst of local edits made within one
debounce window (each edit overwriting the pending timer) emits nothing
by itself, and when the timer finally fires exactly one code-change is
emitted, carrying the value of the last edit, with no timer left
pending. -/
theorem debounce_coalescing (ctx : ClientCtx) (rid uid : String) (st : ClientState)
    (v : Code) (edits : List Code)
    (hc : ctx.connected = true) (hrid : ctx.roomId = some rid)
    (huid : ctx.userId = some uid) (hr : st.isRemote = false) :
    (runEdits ctx st (v :: edits)).2 = [] ∧
    (fireDebounce (runEdits ctx st (v :: edits)).1).2 =
      [.codeChange rid (edits.getLastD v) ctx.language uid] ∧
    (fireDebounce (runEdits ctx st (v :: edits)).1).1.pending = none := by
  rw [runEdits_coalesce ctx rid uid hc hrid huid edits v st hr]
  exact ⟨rfl, rfl, rfl⟩

/-- Witness for C5: three edits in one window then the timer firing emit
exactly one code-change carrying the last value. -/
theorem debounce_coalescing_witness :
    (runEdits ⟨true, some "r1", some "u1", "js"⟩ ⟨false, "", none⟩ ["a", "ab", "abc"]).2
      = [] ∧
    (fireDebounce (runEdits ⟨true, some "r1", some "u1", "js"⟩ ⟨false, "", none⟩
        ["a", "ab", "abc"]).1).2 = [.codeChange "r1" "abc" "js" "u1"] ∧
    (fireDebounce (runEdits ⟨true, some "r1", some "u1", "js"⟩ ⟨false, "", none⟩
        ["a", "ab", "abc"]).1).1.pending = none :=
  debounce_coalescing ⟨true, some "r1", some "u1", "js"⟩ "r1" "u1" ⟨false, "", none⟩
    "a" ["ab", "abc"] rfl rfl rfl rfl

/-- C6.  Echo suppression round-trip: a code-update carrying the local
user's own id is discarded with no state change; one carrying another id
sets the applying-remote flag and replaces the buffer, and the change
notification triggered by that application finds the flag set, clears
it, emits nothing, and leaves the pending timer untouched — so applying
a remote update never produces an outbound code-change for that value. -/
theorem echo_suppression (ctx : ClientCtx) (st : ClientState) (rc : Code) (ru : String) :
    (some ru = ctx.userId → handleCodeUpdate ctx st rc ru = st) ∧
    (some ru ≠ ctx.userId →
      (handleCodeUpdate ctx st rc ru).isRemote = true ∧
      (handleCodeUpdate ctx st rc ru).localCode = rc ∧
      handleCodeChange ctx (handleCodeUpdate ctx st rc ru) rc =
        ({ (handleCodeUpdate ctx st rc ru) with isRemote := false }, []) ∧
      (handleCodeChange ctx (handleCodeUpdate ctx st rc ru) rc).1.pending =
        st.pending) := by
  constructor
  · intro h
    simp [handleCodeUpdate, h]
  · intro h
    have h1 : handleCodeUpdate ctx st rc ru =
        { st with isRemote := true, localCode := rc } := by
      simp [handleCodeUpdate, h]
    rw [h1]
    exact ⟨rfl, rfl, by simp [handleCodeChange], by simp [handleCodeChange]⟩

/-- Witness for C6: an update carrying the local id u1 is discarded, and
one carrying u2 round-trips with the flag cleared and nothing emitted. -/
theorem echo_suppression_witness :
    handleCodeUpdate ⟨true, some "r1", some "u1", "js"⟩ ⟨false, "x", none⟩ "y" "u1" =
      ⟨false, "x", none⟩ ∧
    handleCodeChange ⟨true, some "r1", some "u1", "js"⟩
        (handleCodeUpdate ⟨true, some "r1", some "u1", "js"⟩ ⟨false, "x", none⟩ "y" "u2")
        "y" =
      ({ (handleCodeUpdate ⟨true, some "r1", some "u1", "js"⟩ ⟨false, "x", none⟩ "y" "u2")
          with isRemote := false }, []) :=
  ⟨(echo_suppression ⟨true, some "r1", some "u1", "js"⟩ ⟨false, "x", none⟩ "y" "u1").1 rfl,
   ((echo_suppression ⟨true, some "r1", some "u1", "js"⟩ ⟨false, "x", none⟩ "y" "u2").2
     (by decide)).2.2.1⟩

/-- C10.  Local edits are applied locally regardless of connectivity: a
genuine (non-remote) local change always updates the local state with
the new value and emits nothing synchronously; only the scheduling of
the debounced emission depends on a connected socket with roomId and
userId present — when that condition fails the pending timer is left
exactly as it was. -/
theorem local_edit_always_applied (ctx : ClientCtx) (st : ClientState) (v : Code)
    (hr : st.isRemote = false) :
    (handleCodeChange ctx st v).1.localCode = v ∧
    (handleCodeChange ctx st v).2 = [] ∧
    (∀ rid uid, ctx.connected = true → ctx.roomId = some rid → ctx.userId = some uid →
      (handleCodeChange ctx st v).1.pending =
        some (.codeChange rid v ctx.language uid)) ∧
    (¬(ctx.connected = true ∧ ctx.roomId.isSome = true ∧ ctx.userId.isSome = true) →
      (handleCodeChange ctx st v).1.pending = st.pending) := by
  obtain ⟨conn, orid, ouid, lang⟩ := ctx
  cases conn <;> cases orid <;> cases ouid <;>
    simp [handleCodeChange, hr]

/-- Witness for C10: with no socket connection and no room, a local edit
still updates the local state, and the pending timer stays untouched. -/
theorem local_edit_always_applied_witness :
    (handleCodeChange ⟨false, none, none, "js"⟩ ⟨false, "", none⟩ "x").1.localCode = "x" ∧
    (handleCodeChange ⟨false, none, none, "js"⟩ ⟨false, "", none⟩ "x").2 = [] ∧
    (handleCodeChange ⟨false, none, none, "js"⟩ ⟨false, "", none⟩ "x").1.pending = none :=
  ⟨(local_edit_always_applied ⟨false, none, none, "js"⟩ ⟨false, "", none⟩ "x" rfl).1,
   (local_edit_always_applied ⟨false, none, none, "js"⟩ ⟨false, "", none⟩ "x" rfl).2.1,
   (local_edit_always_applied ⟨false, none, none, "js"⟩ ⟨false, "", none⟩ "x" rfl).2.2.2
     (by simp)⟩

/-- C9.  Client emit helpers fail silently when unconnected: with the
singleton socket absent or not connected, emitCodeChange,
emitCursorChange and emitLanguageChange emit nothing and change nothing;
with the socket absent, leaveRoom emits nothing; joinRoom instead always
emits its join-room event, lazily creating the socket when absent. -/
theorem emit_helpers_silent (m : SockModule)
    (roomId code lang uid pos uname : String) :
    ((m.socket = none ∨ ∃ s, m.socket = some s ∧ s.connected = false) →
      SockModule.emitCodeChange m roomId code lang uid = (m, []) ∧
      SockModule.emitCursorChange m roomId pos uid uname = (m, []) ∧
      SockModule.emitLanguageChange m roomId lang uid = (m, [])) ∧
    (m.socket = none → SockModule.leaveRoom m roomId = (m, [])) ∧
    (SockModule.joinRoom m roomId uid uname).2 = [.joinRoomEv roomId uid uname] ∧
    (m.socket = none →
      ((SockModule.joinRoom m roomId uid uname).1).socket.isSome = true) := by
  refine ⟨?_, ?_, ?_, ?_⟩
  · intro h
    rcases h with h | ⟨s, hs, hcon⟩
    · exact ⟨by simp [SockModule.emitCodeChange, h],
        by simp [SockModule.emitCursorChange, h],
        by simp [SockModule.emitLanguageChange, h]⟩
    · exact ⟨by simp [SockModule.emitCodeChange, hs, hcon],
        by simp [SockModule.emitCursorChange, hs, hcon],
        by simp [SockModule.emitLanguageChange, hs, hcon]⟩
  · intro h
    simp [SockModule.leaveRoom, h]
  · cases hs : m.socket <;> simp [SockModule.joinRoom, SockModule.getSocket, hs]
  · intro h
    simp [SockModule.joinRoom, SockModule.getSocket, h]

/-- Witness for C9: with no socket the emit helpers and leaveRoom are
silent no-ops while joinRoom emits and creates the socket. -/
theorem emit_helpers_silent_witness :
    SockModule.emitCodeChange ⟨none⟩ "r1" "x" "js" "u1" = (⟨none⟩, []) ∧
    SockModule.leaveRoom ⟨none⟩ "r1" = (⟨none⟩, []) ∧
    (SockModule.joinRoom ⟨none⟩ "r1" "u1" "Alice").2 =
      [.joinRoomEv "r1" "u1" "Alice"] ∧
    ((SockModule.joinRoom ⟨none⟩ "r1" "u1" "Alice").1).socket.isSome = true :=
  ⟨((emit_helpers_silent ⟨none⟩ "r1" "x" "js" "u1" "p" "Alice").1 (Or.inl rfl)).1,
   (emit_helpers_silent ⟨none⟩ "r1" "x" "js" "u1" "p" "Alice").2.1 rfl,
   (emit_helpers_silent ⟨none⟩ "r1" "x" "js" "u1" "p" "Alice").2.2.1,
   (emit_helpers_silent ⟨none⟩ "r1" "x" "js" "u1" "p" "Alice").2.2.2 rfl⟩
